import Mathlib

/-!
Verification of the `ezenviron` environment-variable reconciliation module.

This file gives a shallow embedding of `ezenviron/__init__.py`:

* Python `dict[str, str]` values (the registry tiers, the `os.environ`
  snapshot, `merged`, `updated_vars`) are modelled as association lists
  (`Env`) whose operations mirror CPython dict semantics: `envGet` finds the
  first binding with an exactly (case-sensitively) equal key, `envInsert`
  replaces in place or appends, `envUpdate` folds `envInsert` over the right
  operand, as `dict.update` does.  Real Python dicts never hold two bindings
  with the same key; that invariant is the predicate `EnvWF` and is carried
  as a hypothesis where a theorem needs it.
* `_expand_percent_vars` (the `%NAME%` expander built on
  `re.sub(r"%([A-Za-z0-9_]+)%", ...)`) is `expandPercentVars`.
* `os.path.expandvars` (the host path-expansion convention invoked for
  TEMP/TMP; `ntpath.expandvars` on the only supported platform) is
  `expandvars`.
* `reload()` is `reload` (with `mergedFinal` and `applyGo` as its stages),
  `set()` is `setVar`, `get()` is `getVar`.
* On the only supported platform `os.environ` upper-cases every key it
  stores or looks up (`os.py`, `nt` branch, `encodekey = str.upper`); this
  is the function `pyUpper`.  Writes to the live environment
  (`os.environ[key] = value` in `reload()` and `set()`) therefore store
  under `pyUpper key`, and the `current_env = dict(os.environ)` snapshot
  of the real program is always upper-case-keyed (theorems that need this
  carry it as an explicit hypothesis on `cur`).

String scanners are written with an explicit iteration bound equal to the
input length (every loop iteration of the Python originals consumes at least
one character), so every definition is structurally recursive and closed
facts evaluate by `decide`/`rfl`.
-/

set_option autoImplicit false

namespace Ezenviron

/-- Model of a Python `dict[str, str]`: an insertion-ordered association
list.  `machine_env`, `user_env`, `current_env = dict(os.environ)`,
`merged` and `updated_vars` in `reload()` all have this type. -/
abbrev Env := List (String × String)

/-- Python `d.get(k)` / `d[k]`: first binding whose key equals `k`
(string comparison is case-sensitive, exactly as Python `==`). -/
def envGet : Env → String → Option String
  | [], _ => none
  | (k1, v) :: rest, k => if k1 = k then some v else envGet rest k

/-- Python `d[k] = v`: replace the value of an existing binding in place,
otherwise append the new binding at the end (dicts preserve insertion
order). -/
def envInsert : Env → String → String → Env
  | [], k, v => [(k, v)]
  | (k1, v1) :: rest, k, v =>
    if k1 = k then (k1, v) :: rest else (k1, v1) :: envInsert rest k v

/-- Python `d.update(e)`: assign every binding of `e` into `d`, left to
right. -/
def envUpdate (d e : Env) : Env :=
  e.foldl (fun acc p => envInsert acc p.1 p.2) d

/-- The keys of a mapping, in insertion order. -/
def envKeys (d : Env) : List String := d.map Prod.fst

/-- Well-formedness of a mapping: no duplicate keys.  Every real Python
dict satisfies this by construction. -/
def EnvWF (d : Env) : Prop := (envKeys d).Nodup

instance (d : Env) : Decidable (EnvWF d) := by
  unfold EnvWF; infer_instance

/-- ASCII upper-casing of one character, `a`..`z` to `A`..`Z`. -/
def pyUpperChar (c : Char) : Char :=
  if 97 ≤ c.toNat ∧ c.toNat ≤ 122 then Char.ofNat (c.toNat - 32) else c

/-- Model of `str.upper` as used by `os.environ`'s key encoder on the only
supported platform (`os.py`, `nt` branch: `encodekey(key) =
check_str(key).upper()`): every key stored into or looked up in
`os.environ` is upper-cased first.  Modelled for ASCII characters (Python
`str.upper` agrees there). -/
def pyUpper (s : String) : String := String.mk (s.data.map pyUpperChar)

/-- Character class of the regex `[A-Za-z0-9_]` used by
`_expand_percent_vars` (`Char.isAlpha`/`Char.isDigit` are ASCII-only,
exactly like the regex). -/
def isWordChar (c : Char) : Bool := c.isAlpha || c.isDigit || c = '_'

/-- ASCII upper-casing on code points: `a`..`z` map to `A`..`Z`,
everything else is fixed.  Models Python `str.upper` on the ASCII
variable names this module handles. -/
def upNat (n : Nat) : Nat := if 97 ≤ n ∧ n ≤ 122 then n - 32 else n

/-- Case-insensitive equality of two characters (via `upNat`). -/
def ciCharEq (a b : Char) : Bool := upNat a.toNat = upNat b.toNat

/-- Case-insensitive string equality: `s.upper() == t.upper()` for ASCII
strings, compared pointwise. -/
def ciStrEq (s t : String) : Bool := go s.data t.data
where
  go : List Char → List Char → Bool
    | [], [] => true
    | a :: as, b :: bs => ciCharEq a b && go as bs
    | _, _ => false

/-- Case-insensitive first-match lookup.  This is the loop body of `repl`
inside `_expand_percent_vars` (`for k, v in mapping.items(): if k.upper()
== name.upper(): return v`), and also models the case-insensitive key
handling of `os.environ` on the only supported platform. -/
def ciLookup : Env → String → Option String
  | [], _ => none
  | (k, v) :: rest, name =>
    if ciStrEq k name then some v else ciLookup rest name

/-- Scanner for `re.sub(r"%([A-Za-z0-9_]+)%", repl, s)`: a single
left-to-right, non-overlapping pass.  At each `%` it tries to match a
nonempty word-character run followed by a closing `%`; on a match it emits
either the looked-up value or, when the lookup fails, the original token
verbatim, and in both cases continues after the match without re-scanning
the emitted text.  The first argument bounds the iteration count; every
step consumes at least one input character, so fuel equal to the input
length makes the definition total and structurally recursive. -/
def scanPercentF (f : String → Option String) : Nat → List Char → List Char
  | 0, cs => cs
  | _ + 1, [] => []
  | fuel + 1, c :: rest =>
    if c = '%' then
      let nm := rest.takeWhile isWordChar
      let dw := rest.dropWhile isWordChar
      if dw.head? = some '%' ∧ nm ≠ [] then
        match f (String.mk nm) with
        | some v => v.data ++ scanPercentF f fuel dw.tail
        | none => c :: (nm ++ '%' :: scanPercentF f fuel dw.tail)
      else c :: scanPercentF f fuel rest
    else c :: scanPercentF f fuel rest

/-- Entry point of the scanner with sufficient fuel. -/
def scanPercent (f : String → Option String) (cs : List Char) : List Char :=
  scanPercentF f cs.length cs

/-- Model of `_expand_percent_vars(s, mapping)` from `reload()`: expand
`%NAME%` patterns using the provided mapping with case-insensitive keys,
leaving unresolved tokens unchanged. -/
def expandPercentVars (s : String) (mapping : Env) : String :=
  String.mk (scanPercent (ciLookup mapping) s.data)

/-- Character class `string.ascii_letters + string.digits + "_-"` used by
the `$name` branch of `ntpath.expandvars`. -/
def isDollarVarChar (c : Char) : Bool :=
  c.isAlpha || c.isDigit || c = '_' || c = '-'

/-- Split a character list at the first occurrence of `c`
(Python `str.index`): returns the part before and the part after it. -/
def findSplit (c : Char) : List Char → Option (List Char × List Char)
  | [] => none
  | x :: xs =>
    if x = c then some ([], xs)
    else
      match findSplit c xs with
      | some (before, after) => some (x :: before, after)
      | none => none

/-- Model of the main loop of `ntpath.expandvars` (the `os.path.expandvars`
implementation on the only supported platform), which `reload()` applies to
TEMP/TMP values: text inside single quotes is copied verbatim, `%%` emits
`%`, `%var%` and `${var}` and `$var` substitute the environment value if
the variable exists and are left verbatim otherwise, everything else is
copied.  `env` abstracts the `os.environ[...]` lookup.  As with
`scanPercentF`, the fuel argument bounds the iterations; every step of the
Python loop consumes at least one character. -/
def expandvarsF (env : String → Option String) : Nat → List Char → List Char
  | 0, cs => cs
  | _ + 1, [] => []
  | fuel + 1, c :: rest =>
    if c = '\x27' then
      match findSplit '\x27' rest with
      | some (before, after) => c :: (before ++ c :: expandvarsF env fuel after)
      | none => c :: rest
    else if c = '%' then
      match rest with
      | '%' :: rest2 => '%' :: expandvarsF env fuel rest2
      | _ =>
        match findSplit '%' rest with
        | some (var, after) =>
          (match env (String.mk var) with
           | some v => v.data
           | none => '%' :: (var ++ ['%'])) ++ expandvarsF env fuel after
        | none => '%' :: rest
    else if c = '$' then
      match rest with
      | '$' :: rest2 => '$' :: expandvarsF env fuel rest2
      | '\x7b' :: rest2 =>
        (match findSplit '\x7d' rest2 with
         | some (var, after) =>
           (match env (String.mk var) with
            | some v => v.data
            | none => '$' :: '\x7b' :: (var ++ ['\x7d'])) ++
             expandvarsF env fuel after
         | none => '$' :: '\x7b' :: rest2)
      | _ =>
        let var := rest.takeWhile isDollarVarChar
        let after := rest.dropWhile isDollarVarChar
        (match env (String.mk var) with
         | some v => v.data
         | none => '$' :: var) ++ expandvarsF env fuel after
    else c :: expandvarsF env fuel rest

/-- Model of `os.path.expandvars(s)` as called by `reload()`: the live
process environment `cur` (the `current_env` snapshot of `os.environ`)
supplies the variable values, looked up case-insensitively as the
platform's `os.environ` does. -/
def expandvars (s : String) (cur : Env) : String :=
  String.mk (expandvarsF (ciLookup cur) s.data.length s.data)

/-- The merge in `reload()`: `merged = {}; merged.update(machine_env);
merged.update(user_env)`. -/
def mkMerged (machine user : Env) : Env :=
  envUpdate (envUpdate [] machine) user

/-- The explicit lookup mapping `{**machine_env, **user_env,
**current_env}` that `reload()` hands to `_expand_percent_vars` when
re-expanding TEMP/TMP (later layers overwrite earlier ones). -/
def tempTmpMapping (machine user cur : Env) : Env :=
  envUpdate (envUpdate (envUpdate [] machine) user) cur

/-- One iteration of the `for var in ("TEMP", "TMP")` loop in `reload()`:
if `merged.get(var)` is a string, re-expand it first with
`os.path.expandvars` and then with `_expand_percent_vars`, and store the
result back under the same (exact) key. -/
def expandTempTmpStep (machine user cur : Env) (m : Env) (var : String) :
    Env :=
  match envGet m var with
  | some val =>
    envInsert m var
      (expandPercentVars (expandvars val cur) (tempTmpMapping machine user cur))
  | none => m

/-- The whole TEMP/TMP re-expansion loop of `reload()`, unrolled over the
tuple `("TEMP", "TMP")`. -/
def expandTempTmp (merged machine user cur : Env) : Env :=
  expandTempTmpStep machine user cur
    (expandTempTmpStep machine user cur merged "TEMP") "TMP"

/-- The `merged` mapping as it stands when `reload()` reaches its final
update loop: the two tiers merged, then TEMP/TMP re-expanded. -/
def mergedFinal (machine user cur : Env) : Env :=
  expandTempTmp (mkMerged machine user) machine user cur

/-- The final loop of `reload()`:
`for key, value in merged.items(): if key not in current_env or
current_env.get(key) != value: os.environ[key] = value;
updated_vars[key] = value`.  The comparison always uses the `current_env`
snapshot taken at entry (a plain dict, looked up case-sensitively); the
write `os.environ[key] = value` stores the value under `key.upper()`
(`os.environ.__setitem__` encodes the key with `str.upper` on the only
supported platform), while `updated_vars` is a plain dict keyed by the
original spelling. -/
def applyGo (cur : Env) : List (String × String) → Env × Env → Env × Env
  | [], acc => acc
  | (k, v) :: rest, (live, diff) =>
    if envGet cur k = some v then applyGo cur rest (live, diff)
    else applyGo cur rest (envInsert live (pyUpper k) v, envInsert diff k v)

/-- Model of `reload()`: given the machine tier, the user tier (as read
from the registry) and the `os.environ` snapshot `cur`, returns the
resulting live environment and the `updated_vars` diff. -/
def reload (machine user cur : Env) : Env × Env :=
  applyGo cur (mergedFinal machine user cur) (cur, [])

/-- Outcome of opening one registry tier inside `_read_registry_env`. -/
inductive RegReadResult where
  /-- the key opened; these are the values enumerated from it -/
  | ok (values : Env)
  /-- `winreg.OpenKey` raised `FileNotFoundError` (the key is absent) -/
  | notFound
  /-- `winreg.OpenKey` raised some other exception (e.g. a permission
  error); `_read_registry_env` has no handler for it -/
  | openError
  deriving DecidableEq

/-- Model of `_read_registry_env`: `FileNotFoundError` is caught and
yields an empty mapping; any other exception propagates (`Except.error`). -/
def readRegistryEnv : RegReadResult → Except Unit Env
  | .ok vs => .ok vs
  | .notFound => .ok []
  | .openError => .error ()

/-- Model of `reload()` including the two registry reads (machine first,
then user), propagating any uncaught exception from either read. -/
def reloadFromStore (mr ur : RegReadResult) (cur : Env) :
    Except Unit (Env × Env) :=
  match readRegistryEnv mr with
  | .error e => .error e
  | .ok machine =>
    match readRegistryEnv ur with
    | .error e => .error e
    | .ok user => .ok (reload machine user cur)

/-- Outcome of the primary persistence attempt (`_run_powershell` on the
`SetEnvironmentVariable` script) inside `set()`. -/
inductive PSOutcome where
  /-- the script ran successfully -/
  | ok
  /-- neither `powershell` nor `pwsh` was found (`FileNotFoundError`):
  `set()` falls back to a direct registry write -/
  | notFound
  /-- the tool exists but the script failed
  (`subprocess.CalledProcessError`) -/
  | calledProcessError
  /-- any other unexpected exception -/
  | otherError
  deriving DecidableEq

/-- Model of `set(key, value)`: `ps` is the outcome of the PowerShell
persistence attempt and `regWriteOk` tells whether the direct
`HKCU\Environment` registry write would succeed if attempted.  Returns
the boolean result of `set` and the live environment afterwards; as in
`applyGo`, the `os.environ[key] = value` update on the success paths
stores the value under the upper-cased key.  The optional
`_post_set_reload` step never changes the boolean result (its failures
are swallowed) and is not reached on any failing path, so it is not
modelled here. -/
def setVar (ps : PSOutcome) (regWriteOk : Bool) (live : Env)
    (key value : String) : Bool × Env :=
  match ps with
  | .ok => (true, envInsert live (pyUpper key) value)
  | .notFound =>
    if regWriteOk then (true, envInsert live (pyUpper key) value)
    else (false, live)
  | .calledProcessError => (false, live)
  | .otherError => (false, live)

/-- The single-quote escaping `key.replace("'", "''")` applied by `set()`
before splicing a value into its PowerShell script. -/
def psEscape (s : String) : String :=
  String.mk (s.data.foldr
    (fun c acc => if c = '\x27' then '\x27' :: '\x27' :: acc else c :: acc) [])

/-- The PowerShell script `set()` builds and runs:
`[Environment]::SetEnvironmentVariable('{key_ps}', '{value_ps}', 'User');`. -/
def psSetScript (key value : String) : String :=
  "[Environment]::SetEnvironmentVariable(\x27" ++ psEscape key ++
    "\x27, \x27" ++ psEscape value ++ "\x27, \x27User\x27);"

/-- The scripts `set(key, value)` passes to `_run_powershell`, in order:
exactly one, the `SetEnvironmentVariable` script.  No other PowerShell
invocation happens inside `set()`. -/
def setPsInvocations (key value : String) : List String :=
  [psSetScript key value]

/-- The WM_SETTINGCHANGE broadcast snippet returned by
`_broadcast_environment_change_ps()` (transcribed verbatim). -/
def broadcastScript : String :=
  "$sig = @\x27\n" ++
  "using System;\n" ++
  "using System.Runtime.InteropServices;\n" ++
  "public static class NativeMethods \x7b\n" ++
  "  [DllImport(\"user32.dll\", SetLastError=true, CharSet=CharSet.Auto)]\n" ++
  "  public static extern IntPtr SendMessageTimeout(IntPtr hWnd, uint Msg, UIntPtr wParam, string lParam, uint fuFlags, uint uTimeout, out UIntPtr lpdwResult);\n" ++
  "\x7d\n" ++
  "\x27@;\n" ++
  "Add-Type -TypeDefinition $sig -ErrorAction SilentlyContinue | Out-Null;\n" ++
  "[UIntPtr]$out = [UIntPtr]::Zero;\n" ++
  "[void][NativeMethods]::SendMessageTimeout([IntPtr]0xffff, 0x1A, [UIntPtr]0, \x27Environment\x27, 2, 5000, [ref]$out);\n"

/-- The fixed argument list `get(key, power_shell=True)` passes to
`subprocess.run`; note the hard-coded literal variable name `MY_VAR`. -/
def psGetArgs : List String :=
  ["powershell", "-NoProfile", "-Command",
   "[Environment]::GetEnvironmentVariable(\x27MY_VAR\x27,\x27User\x27)"]

/-- Model of `get(key, power_shell)`: with `power_shell=True` it runs the
fixed `psGetArgs` command and returns its (stripped) stdout, abstracted by
`psRun`; otherwise it reads `os.environ.get(key)`, whose lookup is
case-insensitive on the only supported platform. -/
def getVar (env : Env) (psRun : List String → String) (key : String)
    (powerShell : Bool) : Option String :=
  if powerShell then some (psRun psGetArgs) else ciLookup env key

theorem envGet_insert_self (d : Env) (k v : String) :
    envGet (envInsert d k v) k = some v := by
  induction d with
  | nil => simp [envInsert, envGet]
  | cons p rest ih =>
    obtain ⟨k1, v1⟩ := p
    by_cases h : k1 = k <;> simp [envInsert, envGet, h, ih]

theorem envGet_insert_ne (d : Env) (k v a : String) (h : a ≠ k) :
    envGet (envInsert d k v) a = envGet d a := by
  have h2 : ¬(k = a) := fun hh => h hh.symm
  induction d with
  | nil => simp [envInsert, envGet, h2]
  | cons p rest ih =>
    obtain ⟨k1, v1⟩ := p
    by_cases h1 : k1 = k
    · subst h1
      simp [envInsert, envGet, h2]
    · simp only [envInsert, if_neg h1]
      by_cases hc : k1 = a <;> simp [envGet, hc, ih]

theorem mem_envKeys_insert (d : Env) (k v a : String) :
    a ∈ envKeys (envInsert d k v) ↔ a ∈ envKeys d ∨ a = k := by
  induction d with
  | nil => simp [envInsert, envKeys]
  | cons p rest ih =>
    obtain ⟨k1, v1⟩ := p
    simp only [envKeys, List.map_cons, List.mem_cons] at ih ⊢
    by_cases h : k1 = k
    · subst h
      simp only [envInsert, eq_self_iff_true, if_true, List.map_cons,
        List.mem_cons]
      tauto
    · simp only [envInsert, if_neg h, List.map_cons, List.mem_cons]
      tauto

theorem envWF_insert (d : Env) (k v : String) (h : EnvWF d) :
    EnvWF (envInsert d k v) := by
  induction d with
  | nil => simp [EnvWF, envInsert, envKeys]
  | cons p rest ih =>
    obtain ⟨k1, v1⟩ := p
    simp only [EnvWF, envKeys, List.map_cons, List.nodup_cons] at h
    by_cases h1 : k1 = k
    · subst h1
      simpa [EnvWF, envInsert, envKeys, List.nodup_cons] using h
    · have hrest := ih h.2
      simp only [EnvWF, envInsert, if_neg h1, envKeys, List.map_cons,
        List.nodup_cons]
      refine ⟨?_, hrest⟩
      intro hm
      rcases (mem_envKeys_insert rest k v k1).mp hm with hm1 | hm1
      · exact h.1 hm1
      · exact h1 hm1

theorem envGet_eq_none_of_not_mem (d : Env) (k : String)
    (h : k ∉ envKeys d) : envGet d k = none := by
  induction d with
  | nil => rfl
  | cons p rest ih =>
    obtain ⟨k1, v1⟩ := p
    simp only [envKeys, List.map_cons, List.mem_cons] at h
    push_neg at h
    simp [envGet, Ne.symm h.1, ih h.2]

theorem mem_envKeys_of_envGet (d : Env) (k v : String)
    (h : envGet d k = some v) : k ∈ envKeys d := by
  induction d with
  | nil => simp [envGet] at h
  | cons p rest ih =>
    obtain ⟨k1, v1⟩ := p
    by_cases h1 : k1 = k
    · simp [envKeys, h1]
    · simp only [envGet, if_neg h1] at h
      simp only [envKeys, List.map_cons, List.mem_cons]
      exact Or.inr (ih h)

theorem envGet_isSome_of_mem (d : Env) (k : String)
    (h : k ∈ envKeys d) : ∃ v, envGet d k = some v := by
  induction d with
  | nil => simp [envKeys] at h
  | cons p rest ih =>
    obtain ⟨k1, v1⟩ := p
    by_cases h1 : k1 = k
    · exact ⟨v1, by simp [envGet, h1]⟩
    · simp only [envKeys, List.map_cons, List.mem_cons] at h
      rcases h with h | h
      · exact absurd h.symm h1
      · simpa [envGet, if_neg h1] using ih h

theorem mem_of_envGet (d : Env) (k v : String)
    (h : envGet d k = some v) : (k, v) ∈ d := by
  induction d with
  | nil => simp [envGet] at h
  | cons p rest ih =>
    obtain ⟨k1, v1⟩ := p
    by_cases h1 : k1 = k
    · simp only [envGet, if_pos h1] at h
      subst h1
      cases h
      exact List.mem_cons_self _ _
    · simp only [envGet, if_neg h1] at h
      exact List.mem_cons_of_mem _ (ih h)

theorem envGet_update_not_mem (e : Env) :
    ∀ (d : Env) (k : String), k ∉ envKeys e →
      envGet (envUpdate d e) k = envGet d k := by
  induction e with
  | nil => intro d k _; rfl
  | cons p tl ih =>
    intro d k hk
    obtain ⟨k0, v0⟩ := p
    simp only [envKeys, List.map_cons, List.mem_cons] at hk
    push_neg at hk
    have step : envUpdate d ((k0, v0) :: tl) = envUpdate (envInsert d k0 v0) tl := rfl
    rw [step, ih (envInsert d k0 v0) k hk.2, envGet_insert_ne d k0 v0 k hk.1]

theorem envGet_update_mem (e : Env) :
    ∀ (d : Env) (k : String), EnvWF e → k ∈ envKeys e →
      envGet (envUpdate d e) k = envGet e k := by
  induction e with
  | nil => intro d k _ hk; simp [envKeys] at hk
  | cons p tl ih =>
    intro d k hwf hk
    obtain ⟨k0, v0⟩ := p
    have step : envUpdate d ((k0, v0) :: tl) = envUpdate (envInsert d k0 v0) tl := rfl
    simp only [EnvWF, envKeys, List.map_cons, List.nodup_cons] at hwf
    by_cases h0 : k0 = k
    · subst h0
      rw [step, envGet_update_not_mem tl (envInsert d k0 v0) k0 hwf.1,
        envGet_insert_self]
      simp [envGet]
    · simp only [envKeys, List.map_cons, List.mem_cons] at hk
      rcases hk with hk | hk
      · exact absurd hk.symm h0
      · rw [step, ih (envInsert d k0 v0) k hwf.2 hk]
        simp [envGet, if_neg h0]

theorem envWF_update (d e : Env) (h : EnvWF d) : EnvWF (envUpdate d e) := by
  induction e generalizing d with
  | nil => exact h
  | cons p tl ih =>
    obtain ⟨k0, v0⟩ := p
    exact ih (envInsert d k0 v0) (envWF_insert d k0 v0 h)

theorem mem_envKeys_update (d e : Env) (a : String) :
    a ∈ envKeys (envUpdate d e) ↔ a ∈ envKeys d ∨ a ∈ envKeys e := by
  induction e generalizing d with
  | nil => simp [envUpdate, envKeys]
  | cons p tl ih =>
    obtain ⟨k0, v0⟩ := p
    have step : envUpdate d ((k0, v0) :: tl) = envUpdate (envInsert d k0 v0) tl := rfl
    rw [step, ih (envInsert d k0 v0)]
    rw [mem_envKeys_insert]
    simp only [envKeys, List.map_cons, List.mem_cons]
    tauto

theorem string_mk_data (s : String) : String.mk s.data = s := rfl

theorem string_data_append (a b : String) : (a ++ b).data = a.data ++ b.data :=
  rfl

theorem takeWhile_word_tail (nm tail : List Char)
    (h2 : ∀ c ∈ nm, isWordChar c = true) :
    (nm ++ '%' :: tail).takeWhile isWordChar = nm ∧
      (nm ++ '%' :: tail).dropWhile isWordChar = '%' :: tail := by
  induction nm with
  | nil =>
    have hw : isWordChar '%' = false := by decide
    simp [List.takeWhile, List.dropWhile, hw]
  | cons c tl ih =>
    have hc : isWordChar c = true := h2 c (List.mem_cons_self _ _)
    have ihh := ih (fun x hx => h2 x (List.mem_cons_of_mem _ hx))
    simp [List.takeWhile_cons, List.dropWhile_cons, hc, ihh.1, ihh.2]

theorem scanPercentF_nil_any (f : String → Option String) (fuel : Nat) :
    scanPercentF f fuel [] = [] := by
  cases fuel <;> rfl

theorem length_dropWhile_le (p : Char → Bool) (l : List Char) :
    (l.dropWhile p).length ≤ l.length := by
  induction l with
  | nil => exact Nat.le_refl _
  | cons c rest ih =>
    by_cases hc : p c
    · simp only [List.dropWhile_cons, hc, if_true, List.length_cons]
      exact Nat.le_succ_of_le ih
    · simp [List.dropWhile_cons, hc]

theorem scanPercentF_fuel_irrel (f : String → Option String) :
    ∀ (n : Nat) (cs : List Char), cs.length ≤ n →
      ∀ f1 f2 : Nat, cs.length ≤ f1 → cs.length ≤ f2 →
        scanPercentF f f1 cs = scanPercentF f f2 cs := by
  intro n
  induction n with
  | zero =>
    intro cs hcs f1 f2 _ _
    have : cs = [] := List.eq_nil_of_length_eq_zero (Nat.le_zero.mp hcs)
    subst this
    rw [scanPercentF_nil_any, scanPercentF_nil_any]
  | succ n ih =>
    intro cs hcs f1 f2 h1 h2
    cases cs with
    | nil => rw [scanPercentF_nil_any, scanPercentF_nil_any]
    | cons c rest =>
      simp only [List.length_cons] at hcs h1 h2
      cases f1 with
      | zero => exact absurd h1 (by omega)
      | succ g1 =>
        cases f2 with
        | zero => exact absurd h2 (by omega)
        | succ g2 =>
          have hrn : rest.length ≤ n := Nat.succ_le_succ_iff.mp hcs
          have hr1 : rest.length ≤ g1 := Nat.succ_le_succ_iff.mp h1
          have hr2 : rest.length ≤ g2 := Nat.succ_le_succ_iff.mp h2
          have htl : (rest.dropWhile isWordChar).tail.length ≤ rest.length := by
            have := length_dropWhile_le isWordChar rest
            have := List.length_tail (rest.dropWhile isWordChar)
            omega
          simp only [scanPercentF]
          by_cases hc : c = '%'
          · rw [if_pos hc, if_pos hc]
            by_cases hd : ((rest.dropWhile isWordChar).head? = some '%' ∧
                rest.takeWhile isWordChar ≠ [])
            · rw [if_pos hd, if_pos hd]
              cases hf : f (String.mk (rest.takeWhile isWordChar)) with
              | some v =>
                rw [ih (rest.dropWhile isWordChar).tail
                  (Nat.le_trans htl hrn) g1 g2 (Nat.le_trans htl hr1)
                  (Nat.le_trans htl hr2)]
              | none =>
                rw [ih (rest.dropWhile isWordChar).tail
                  (Nat.le_trans htl hrn) g1 g2 (Nat.le_trans htl hr1)
                  (Nat.le_trans htl hr2)]
            · rw [if_neg hd, if_neg hd, ih rest hrn g1 g2 hr1 hr2]
          · rw [if_neg hc, if_neg hc, ih rest hrn g1 g2 hr1 hr2]

theorem scanPercent_no_percent_aux (f : String → Option String) :
    ∀ (cs : List Char) (fuel : Nat), cs.length ≤ fuel → '%' ∉ cs →
      scanPercentF f fuel cs = cs := by
  intro cs
  induction cs with
  | nil => intro fuel _ _; exact scanPercentF_nil_any f fuel
  | cons c rest ih =>
    intro fuel h1 hnp
    simp only [List.length_cons] at h1
    cases fuel with
    | zero => exact absurd h1 (by omega)
    | succ g =>
      have hc : ¬(c = '%') := fun hh => hnp (hh ▸ List.mem_cons_self _ _)
      have hrest : '%' ∉ rest := fun hm => hnp (List.mem_cons_of_mem _ hm)
      simp only [scanPercentF]
      rw [if_neg hc, ih g (Nat.succ_le_succ_iff.mp h1) hrest]

theorem scanPercent_segment (f : String → Option String) :
    ∀ (pre name rest : List Char), '%' ∉ pre → name ≠ [] →
      (∀ c ∈ name, isWordChar c = true) →
      scanPercent f (pre ++ '%' :: (name ++ '%' :: rest)) =
        pre ++ (match f (String.mk name) with
                | some v => v.data
                | none => '%' :: (name ++ ['%'])) ++ scanPercent f rest := by
  intro pre
  induction pre with
  | nil =>
    intro name rest hp h1 h2
    obtain ⟨ht, hd⟩ := takeWhile_word_tail name rest h2
    have hfuel : rest.length ≤ (name ++ '%' :: rest).length := by
      simp [List.length_append]
      omega
    show scanPercentF f (('%' :: (name ++ '%' :: rest)).length)
      ('%' :: (name ++ '%' :: rest)) = _
    rw [show ('%' :: (name ++ '%' :: rest)).length =
      (name ++ '%' :: rest).length + 1 from rfl]
    simp only [scanPercentF, ht, hd]
    rw [if_pos trivial, if_pos ⟨rfl, h1⟩]
    have hcont : scanPercentF f ((name ++ '%' :: rest).length)
        (('%' :: rest).tail) = scanPercent f rest :=
      scanPercentF_fuel_irrel f rest.length rest (Nat.le_refl _) _ _ hfuel
        (Nat.le_refl _)
    cases hf : f (String.mk name) with
    | some v => rw [hcont]; simp
    | none => rw [hcont]; simp
  | cons p pre2 ih =>
    intro name rest hp h1 h2
    have hpne : ¬(p = '%') := fun hh => hp (hh ▸ List.mem_cons_self _ _)
    have hp2 : '%' ∉ pre2 := fun hm => hp (List.mem_cons_of_mem _ hm)
    show scanPercentF f ((p :: (pre2 ++ '%' :: (name ++ '%' :: rest))).length)
      (p :: (pre2 ++ '%' :: (name ++ '%' :: rest))) = _
    rw [show (p :: (pre2 ++ '%' :: (name ++ '%' :: rest))).length =
      (pre2 ++ '%' :: (name ++ '%' :: rest)).length + 1 from rfl]
    simp only [scanPercentF]
    rw [if_neg hpne]
    have : scanPercentF f ((pre2 ++ '%' :: (name ++ '%' :: rest)).length)
        (pre2 ++ '%' :: (name ++ '%' :: rest)) =
        scanPercent f (pre2 ++ '%' :: (name ++ '%' :: rest)) := rfl
    rw [this, ih name rest hp2 h1 h2]
    simp

theorem applyGo_frame_diff (cur : Env) :
    ∀ (l : List (String × String)) (live diff : Env) (k : String),
      k ∉ l.map Prod.fst →
      envGet (applyGo cur l (live, diff)).2 k = envGet diff k := by
  intro l
  induction l with
  | nil => intro live diff k _; rfl
  | cons p rest ih =>
    intro live diff k hk
    obtain ⟨k0, v0⟩ := p
    simp only [List.map_cons, List.mem_cons] at hk
    push_neg at hk
    by_cases hc : envGet cur k0 = some v0
    · simpa [applyGo, hc] using ih live diff k hk.2
    · have := ih (envInsert live (pyUpper k0) v0) (envInsert diff k0 v0) k hk.2
      simp only [applyGo, if_neg hc]
      rw [this, envGet_insert_ne diff k0 v0 k hk.1]

theorem applyGo_frame_live (cur : Env) :
    ∀ (l : List (String × String)) (live diff : Env) (a : String),
      a ∉ (l.map Prod.fst).map pyUpper →
      envGet (applyGo cur l (live, diff)).1 a = envGet live a := by
  intro l
  induction l with
  | nil => intro live diff a _; rfl
  | cons p rest ih =>
    intro live diff a ha
    obtain ⟨k0, v0⟩ := p
    simp only [List.map_cons, List.mem_cons] at ha
    push_neg at ha
    by_cases hc : envGet cur k0 = some v0
    · simpa [applyGo, hc] using ih live diff a ha.2
    · have := ih (envInsert live (pyUpper k0) v0) (envInsert diff k0 v0) a ha.2
      simp only [applyGo, if_neg hc]
      rw [this, envGet_insert_ne live (pyUpper k0) v0 a ha.1]

theorem applyGo_diff_mem (cur : Env) :
    ∀ (l : List (String × String)) (live diff : Env) (k v : String),
      (l.map Prod.fst).Nodup → (k, v) ∈ l →
      envGet (applyGo cur l (live, diff)).2 k =
        (if envGet cur k = some v then envGet diff k else some v) := by
  intro l
  induction l with
  | nil => intro live diff k v _ hm; simp at hm
  | cons p rest ih =>
    intro live diff k v hnd hm
    obtain ⟨k0, v0⟩ := p
    simp only [List.map_cons, List.nodup_cons] at hnd
    rcases List.mem_cons.mp hm with hm1 | hm1
    · cases hm1
      have hk : k ∉ rest.map Prod.fst := hnd.1
      by_cases hc : envGet cur k = some v
      · simp only [applyGo, if_pos hc, if_pos hc]
        exact applyGo_frame_diff cur rest live diff k hk
      · simp only [applyGo, if_neg hc, if_neg hc]
        rw [applyGo_frame_diff cur rest (envInsert live (pyUpper k) v)
          (envInsert diff k v) k hk, envGet_insert_self]
    · have hk0 : k ≠ k0 := by
        intro hh
        subst hh
        exact hnd.1 (List.mem_map.mpr ⟨(k, v), hm1, rfl⟩)
      by_cases hc : envGet cur k0 = some v0
      · simpa [applyGo, hc] using ih live diff k v hnd.2 hm1
      · have := ih (envInsert live (pyUpper k0) v0) (envInsert diff k0 v0)
          k v hnd.2 hm1
        simp only [applyGo, if_neg hc]
        rw [this, envGet_insert_ne diff k0 v0 k hk0]

theorem applyGo_live_upper (cur : Env) :
    ∀ (l : List (String × String)) (live diff : Env) (k v : String),
      (l.map Prod.fst).Nodup → (k, v) ∈ l →
      (∀ k2 ∈ l.map Prod.fst, pyUpper k2 = pyUpper k → k2 = k) →
      envGet (applyGo cur l (live, diff)).1 (pyUpper k) =
        (if envGet cur k = some v then envGet live (pyUpper k) else some v) := by
  intro l
  induction l with
  | nil => intro live diff k v _ hm; simp at hm
  | cons p rest ih =>
    intro live diff k v hnd hm huniq
    obtain ⟨k0, v0⟩ := p
    simp only [List.map_cons, List.nodup_cons] at hnd
    rcases List.mem_cons.mp hm with hm1 | hm1
    · cases hm1
      have hk : pyUpper k ∉ (rest.map Prod.fst).map pyUpper := by
        intro hmem
        obtain ⟨k2, hk2, hk2u⟩ := List.mem_map.mp hmem
        have : k2 = k := huniq k2 (List.mem_cons_of_mem _ hk2) hk2u
        exact hnd.1 (this ▸ hk2)
      by_cases hc : envGet cur k = some v
      · simp only [applyGo, if_pos hc, if_pos hc]
        exact applyGo_frame_live cur rest live diff (pyUpper k) hk
      · simp only [applyGo, if_neg hc, if_neg hc]
        rw [applyGo_frame_live cur rest (envInsert live (pyUpper k) v)
          (envInsert diff k v) (pyUpper k) hk, envGet_insert_self]
    · have hk0 : k ≠ k0 := by
        intro hh
        subst hh
        exact hnd.1 (List.mem_map.mpr ⟨(k, v), hm1, rfl⟩)
      have hk0u : pyUpper k ≠ pyUpper k0 := by
        intro hh
        exact hk0 ((huniq k0 (List.mem_cons_self _ _) hh.symm).symm)
      have huniq2 : ∀ k2 ∈ rest.map Prod.fst, pyUpper k2 = pyUpper k → k2 = k :=
        fun k2 hk2 hu => huniq k2 (List.mem_cons_of_mem _ hk2) hu
      by_cases hc : envGet cur k0 = some v0
      · simpa [applyGo, hc] using ih live diff k v hnd.2 hm1 huniq2
      · have := ih (envInsert live (pyUpper k0) v0) (envInsert diff k0 v0)
          k v hnd.2 hm1 huniq2
        simp only [applyGo, if_neg hc]
        rw [this, envGet_insert_ne live (pyUpper k0) v0 (pyUpper k) hk0u]

theorem applyGo_unchanged (cur : Env) :
    ∀ (l : List (String × String)) (acc : Env × Env),
      (∀ p ∈ l, envGet cur p.1 = some p.2) → applyGo cur l acc = acc := by
  intro l
  induction l with
  | nil => intro acc _; rfl
  | cons p rest ih =>
    intro acc hall
    obtain ⟨k0, v0⟩ := p
    obtain ⟨live, diff⟩ := acc
    have h0 := hall (k0, v0) (List.mem_cons_self _ _)
    simp only [applyGo, if_pos h0]
    exact ih (live, diff) (fun q hq => hall q (List.mem_cons_of_mem _ hq))

theorem envWF_mkMerged (machine user : Env) : EnvWF (mkMerged machine user) :=
  envWF_update _ user (envWF_update _ machine (by simp [EnvWF, envKeys]))

theorem expandTempTmpStep_get_ne (machine user cur m : Env)
    (var k : String) (h : k ≠ var) :
    envGet (expandTempTmpStep machine user cur m var) k = envGet m k := by
  unfold expandTempTmpStep
  cases envGet m var with
  | none => rfl
  | some val => exact envGet_insert_ne m var _ k h

theorem expandTempTmpStep_skip (machine user cur m : Env) (var : String)
    (h : envGet m var = none) :
    expandTempTmpStep machine user cur m var = m := by
  unfold expandTempTmpStep
  rw [h]

theorem expandTempTmpStep_of_get (machine user cur m : Env) (var v : String)
    (h : envGet m var = some v) :
    expandTempTmpStep machine user cur m var =
      envInsert m var (expandPercentVars (expandvars v cur)
        (tempTmpMapping machine user cur)) := by
  unfold expandTempTmpStep
  rw [h]

theorem envWF_expandTempTmpStep (machine user cur m : Env) (var : String)
    (h : EnvWF m) : EnvWF (expandTempTmpStep machine user cur m var) := by
  unfold expandTempTmpStep
  cases envGet m var with
  | none => exact h
  | some val => exact envWF_insert m var _ h

theorem mem_envKeys_expandTempTmpStep (machine user cur m : Env)
    (var a : String) :
    a ∈ envKeys (expandTempTmpStep machine user cur m var) ↔
      a ∈ envKeys m := by
  unfold expandTempTmpStep
  cases hv : envGet m var with
  | none => exact Iff.rfl
  | some val =>
    rw [mem_envKeys_insert]
    constructor
    · rintro (h | h)
      · exact h
      · exact h ▸ mem_envKeys_of_envGet m var val hv
    · exact Or.inl

theorem envWF_mergedFinal (machine user cur : Env) :
    EnvWF (mergedFinal machine user cur) :=
  envWF_expandTempTmpStep _ _ _ _ _
    (envWF_expandTempTmpStep _ _ _ _ _ (envWF_mkMerged machine user))

theorem mem_envKeys_mergedFinal (machine user cur : Env) (a : String) :
    a ∈ envKeys (mergedFinal machine user cur) ↔
      a ∈ envKeys machine ∨ a ∈ envKeys user := by
  unfold mergedFinal expandTempTmp
  rw [mem_envKeys_expandTempTmpStep, mem_envKeys_expandTempTmpStep]
  unfold mkMerged
  rw [mem_envKeys_update, mem_envKeys_update]
  simp [envKeys]

theorem reload_diff_get (machine user cur : Env) (k : String)
    (hk : k ∈ envKeys (mergedFinal machine user cur)) :
    envGet (reload machine user cur).2 k =
      (if envGet cur k = envGet (mergedFinal machine user cur) k then none
       else envGet (mergedFinal machine user cur) k) := by
  obtain ⟨v, hv⟩ := envGet_isSome_of_mem _ k hk
  have hmem := mem_of_envGet _ k v hv
  have hnd : ((mergedFinal machine user cur).map Prod.fst).Nodup :=
    envWF_mergedFinal machine user cur
  have := applyGo_diff_mem cur (mergedFinal machine user cur) cur [] k v
    hnd hmem
  unfold reload
  rw [this, hv]
  by_cases hc : envGet cur k = some v
  · rw [if_pos hc, if_pos hc]
    rfl
  · rw [if_neg hc, if_neg hc]

theorem reload_live_frame (machine user cur : Env) (a : String)
    (ha : a ∉ (envKeys (mergedFinal machine user cur)).map pyUpper) :
    envGet (reload machine user cur).1 a = envGet cur a :=
  applyGo_frame_live cur (mergedFinal machine user cur) cur [] a ha

theorem reload_live_upper (machine user cur : Env) (k : String)
    (hcur : ∀ p ∈ cur, pyUpper p.1 = p.1)
    (hk : k ∈ envKeys (mergedFinal machine user cur))
    (huniq : ∀ k2 ∈ envKeys (mergedFinal machine user cur),
      pyUpper k2 = pyUpper k → k2 = k) :
    envGet (reload machine user cur).1 (pyUpper k) =
      envGet (mergedFinal machine user cur) k := by
  obtain ⟨v, hv⟩ := envGet_isSome_of_mem _ k hk
  have hmem := mem_of_envGet _ k v hv
  have hnd : ((mergedFinal machine user cur).map Prod.fst).Nodup :=
    envWF_mergedFinal machine user cur
  have := applyGo_live_upper cur (mergedFinal machine user cur) cur [] k v
    hnd hmem huniq
  unfold reload
  rw [this, hv]
  by_cases hc : envGet cur k = some v
  · rw [if_pos hc]
    have hkup : pyUpper k = k :=
      hcur (k, v) (mem_of_envGet cur k v hc)
    rw [hkup]
    exact hc
  · rw [if_neg hc]

/-- Claim C1: for every machine tier mapping, user tier mapping and key
present (with identical spelling) in both, the merged mapping built by
`reload()` maps that key to the user-tier value, regardless of the order
entries were inserted in either tier. -/
theorem user_tier_precedence (machine user : Env) (key : String)
    (hwu : EnvWF user) (_hm : key ∈ envKeys machine)
    (hu : key ∈ envKeys user) :
    envGet (mkMerged machine user) key = envGet user key := by
  unfold mkMerged
  exact envGet_update_mem user _ key hwu hu

/-- Witness for C1 at a concrete shared key. -/
theorem user_tier_precedence_witness :
    (EnvWF [("K", "u")] ∧ "K" ∈ envKeys [("K", "m")] ∧
      "K" ∈ envKeys [("K", "u")]) ∧
    envGet (mkMerged [("K", "m")] [("K", "u")]) "K" =
      envGet [("K", "u")] "K" :=
  ⟨⟨by decide, by decide, by decide⟩,
    user_tier_precedence [("K", "m")] [("K", "u")] "K" (by decide) (by decide)
      (by decide)⟩

/-- Counterexample to C2 as stated: with machine tier
`{TEMP: "%X%", X: "new"}`, empty user tier and live environment
`{X: "old"}`, the TEMP re-expansion reads the live value of `X`, which the
first reconcile itself rewrites, so the second consecutive `reload()`
returns a non-empty diff. -/
theorem reload_not_idempotent_cex :
    (reload [("TEMP", "%X%"), ("X", "new")] []
        (reload [("TEMP", "%X%"), ("X", "new")] [] [("X", "old")]).1).2 =
      [("TEMP", "new")] ∧
    [("TEMP", "new")] ≠ ([] : Env) := by decide

/-- Claim C2 (amended): `reload()` is idempotent — the second consecutive
call with unchanged tiers returns an empty diff — provided neither `TEMP`
nor `TMP` occurs among the keys of the merged tiers (so the live-state
dependent TEMP/TMP re-expansion does not run) and every merged key is
already upper-cased (otherwise the upper-casing `os.environ` write makes
the case-sensitive `current_env` check fail again on every call). -/
theorem reload_idempotent_no_temp (machine user cur : Env)
    (hT : "TEMP" ∉ envKeys (mkMerged machine user))
    (hM : "TMP" ∉ envKeys (mkMerged machine user))
    (hup : ∀ k ∈ envKeys (mkMerged machine user), pyUpper k = k) :
    (reload machine user (reload machine user cur).1).2 = [] := by
  have hmg : ((mkMerged machine user).map Prod.fst).Nodup :=
    envWF_mkMerged machine user
  have hskip : ∀ c : Env, mergedFinal machine user c = mkMerged machine user := by
    intro c
    unfold mergedFinal expandTempTmp
    rw [expandTempTmpStep_skip machine user c _ "TEMP"
      (envGet_eq_none_of_not_mem _ _ hT)]
    rw [expandTempTmpStep_skip machine user c _ "TMP"
      (envGet_eq_none_of_not_mem _ _ hM)]
  have hlive : ∀ p ∈ mkMerged machine user,
      envGet (reload machine user cur).1 p.1 = some p.2 := by
    intro p hp
    obtain ⟨k, v⟩ := p
    have hkmem : k ∈ envKeys (mkMerged machine user) :=
      List.mem_map.mpr ⟨(k, v), hp, rfl⟩
    have hkup : pyUpper k = k := hup k hkmem
    have huniq : ∀ k2 ∈ (mkMerged machine user).map Prod.fst,
        pyUpper k2 = pyUpper k → k2 = k := by
      intro k2 hk2 he
      rw [hup k2 hk2, hkup] at he
      exact he
    have happ := applyGo_live_upper cur (mergedFinal machine user cur) cur []
      k v (by rw [hskip]; exact hmg) (by rw [hskip]; exact hp)
      (by rw [hskip]; exact huniq)
    show envGet (applyGo cur (mergedFinal machine user cur) (cur, [])).1 k =
      some v
    rw [← hkup, happ]
    by_cases hc : envGet cur k = some v
    · rw [if_pos hc, hkup]
      exact hc
    · rw [if_neg hc]
  have key : ∀ live0 : Env,
      (∀ p ∈ mkMerged machine user, envGet live0 p.1 = some p.2) →
      (reload machine user live0).2 = [] := by
    intro live0 h0
    show (applyGo live0 (mergedFinal machine user live0) (live0, [])).2 = []
    rw [hskip, applyGo_unchanged live0 (mkMerged machine user) (live0, []) h0]
  exact key (reload machine user cur).1 hlive

/-- Witness for the amended C2 at concrete tiers with upper-case keys and
without TEMP/TMP. -/
theorem reload_idempotent_no_temp_witness :
    ("TEMP" ∉ envKeys (mkMerged [("K", "v")] [("L", "w")]) ∧
      "TMP" ∉ envKeys (mkMerged [("K", "v")] [("L", "w")]) ∧
      (∀ k ∈ envKeys (mkMerged [("K", "v")] [("L", "w")]), pyUpper k = k)) ∧
    (reload [("K", "v")] [("L", "w")]
      (reload [("K", "v")] [("L", "w")] []).1).2 = [] :=
  ⟨⟨by decide, by decide, by decide⟩,
    reload_idempotent_no_temp [("K", "v")] [("L", "w")] [] (by decide)
      (by decide) (by decide)⟩

/-- Counterexample to C3 as stated: `os.environ["foo"] = "new"` stores the
value under the upper-cased key, so with machine tier `{foo: "new"}` the
live-only key `FOO` (present in neither tier under that spelling) does not
keep its value `"old"` — the frame part of the claim fails, and the
postcondition `liveEnv[key] = merged[key]` fails at `"foo"` as well. -/
theorem reload_frame_cex :
    "FOO" ∉ envKeys [("foo", "new")] ∧ "FOO" ∉ envKeys ([] : Env) ∧
    envGet [("FOO", "old")] "FOO" = some "old" ∧
    envGet (reload [("foo", "new")] [] [("FOO", "old")]).1 "FOO" =
      some "new" ∧
    envGet (reload [("foo", "new")] [] [("FOO", "old")]).1 "foo" = none := by
  decide

/-- Claim C3 (amended): `reload()` stores `merged[key]` under the
upper-cased key in the live environment and records `(key, merged[key])`
in the diff exactly for the merged keys that are absent from the
`current_env` snapshot or present with a different value; a live key that
is not the upper-case image of any merged key keeps its value and the
diff never contains keys outside the merged tiers; and when the snapshot
is upper-case-keyed (as `dict(os.environ)` always is) and no other merged
key collides on upper-casing, `liveEnv[key.upper()]` ends equal to
`merged[key]`. -/
theorem reload_postcondition_upper (machine user cur : Env) (k a : String) :
    (k ∈ envKeys (mergedFinal machine user cur) →
      envGet (reload machine user cur).2 k =
        (if envGet cur k = envGet (mergedFinal machine user cur) k then none
         else envGet (mergedFinal machine user cur) k)) ∧
    (k ∉ envKeys machine → k ∉ envKeys user →
      envGet (reload machine user cur).2 k = none) ∧
    (a ∉ (envKeys (mergedFinal machine user cur)).map pyUpper →
      envGet (reload machine user cur).1 a = envGet cur a) ∧
    ((∀ p ∈ cur, pyUpper p.1 = p.1) →
      k ∈ envKeys (mergedFinal machine user cur) →
      (∀ k2 ∈ envKeys (mergedFinal machine user cur),
        pyUpper k2 = pyUpper k → k2 = k) →
      envGet (reload machine user cur).1 (pyUpper k) =
        envGet (mergedFinal machine user cur) k) := by
  refine ⟨reload_diff_get machine user cur k, ?_,
    reload_live_frame machine user cur a,
    reload_live_upper machine user cur k⟩
  intro hm hu
  have hnk : k ∉ (mergedFinal machine user cur).map Prod.fst := by
    intro hkm
    rcases (mem_envKeys_mergedFinal machine user cur k).mp hkm with h | h
    · exact hm h
    · exact hu h
  exact applyGo_frame_diff cur (mergedFinal machine user cur) cur [] k hnk

/-- Witness for the amended C3: a merged key is reported in the diff and
applied at its (upper-cased) spelling; an unrelated key is unreported and
untouched. -/
theorem reload_postcondition_upper_witness :
    ("A" ∈ envKeys (mergedFinal [("A", "1")] [] [("B", "2")]) ∧
      envGet (reload [("A", "1")] [] [("B", "2")]).2 "A" =
        (if envGet [("B", "2")] "A" =
            envGet (mergedFinal [("A", "1")] [] [("B", "2")]) "A" then none
         else envGet (mergedFinal [("A", "1")] [] [("B", "2")]) "A")) ∧
    ("C" ∉ envKeys [("A", "1")] ∧ "C" ∉ envKeys ([] : Env) ∧
      envGet (reload [("A", "1")] [] [("B", "2")]).2 "C" = none) ∧
    ("B" ∉ (envKeys (mergedFinal [("A", "1")] [] [("B", "2")])).map pyUpper ∧
      envGet (reload [("A", "1")] [] [("B", "2")]).1 "B" =
        envGet [("B", "2")] "B") ∧
    ((∀ p ∈ [("B", "2")], pyUpper p.1 = p.1) ∧
      envGet (reload [("A", "1")] [] [("B", "2")]).1 (pyUpper "A") =
        envGet (mergedFinal [("A", "1")] [] [("B", "2")]) "A") :=
  ⟨⟨by decide,
      (reload_postcondition_upper [("A", "1")] [] [("B", "2")] "A" "B").1
        (by decide)⟩,
    ⟨by decide, by decide,
      (reload_postcondition_upper [("A", "1")] [] [("B", "2")] "C" "B").2.1
        (by decide) (by decide)⟩,
    ⟨by decide,
      (reload_postcondition_upper [("A", "1")] [] [("B", "2")] "A" "B").2.2.1
        (by decide)⟩,
    ⟨by decide,
      (reload_postcondition_upper [("A", "1")] [] [("B", "2")] "A" "B").2.2.2
        (by decide) (by decide) (by decide)⟩⟩

/-- Counterexample to C4 as stated: with `machine = {PATH: "m"}` and
`user = {path: "u"}` (keys differing only in case), the merge keeps both
as distinct entries; looking the name up — exactly, or with the expander's
own case-insensitive lookup — yields the machine-tier value `"m"`, so the
user-tier value does not win for that name. -/
theorem ci_precedence_cex :
    envGet (mkMerged [("PATH", "m")] [("path", "u")]) "PATH" = some "m" ∧
    envGet (mkMerged [("PATH", "m")] [("path", "u")]) "path" = some "u" ∧
    ciLookup (mkMerged [("PATH", "m")] [("path", "u")]) "PATH" = some "m" ∧
    ciLookup (mkMerged [("PATH", "m")] [("path", "u")]) "path" = some "m" := by
  decide

/-- Claim C4 (amended): merge precedence compares keys case-sensitively:
tier keys that differ only in letter case are kept as distinct entries of
`merged`, each retaining its own tier's value (stored casing is whatever
the tier wrote); only the expander's lookup is case-insensitive. -/
theorem case_sensitive_merge (machine user : Env) (k1 k2 vm vu : String)
    (_hci : ciStrEq k1 k2 = true) (_hne : k1 ≠ k2)
    (hwm : EnvWF machine) (hwu : EnvWF user)
    (hm : envGet machine k1 = some vm) (hu : envGet user k2 = some vu)
    (hnu : k1 ∉ envKeys user) :
    envGet (mkMerged machine user) k1 = some vm ∧
    envGet (mkMerged machine user) k2 = some vu := by
  constructor
  · unfold mkMerged
    rw [envGet_update_not_mem user _ k1 hnu,
      envGet_update_mem machine _ k1 hwm (mem_envKeys_of_envGet _ _ _ hm)]
    exact hm
  · unfold mkMerged
    rw [envGet_update_mem user _ k2 hwu (mem_envKeys_of_envGet _ _ _ hu)]
    exact hu

/-- Witness for the amended C4 at the `PATH`/`path` instance. -/
theorem case_sensitive_merge_witness :
    (ciStrEq "PATH" "path" = true ∧ "PATH" ≠ "path" ∧
      envGet [("PATH", "m")] "PATH" = some "m" ∧
      envGet [("path", "u")] "path" = some "u" ∧
      "PATH" ∉ envKeys [("path", "u")]) ∧
    envGet (mkMerged [("PATH", "m")] [("path", "u")]) "PATH" = some "m" ∧
    envGet (mkMerged [("PATH", "m")] [("path", "u")]) "path" = some "u" :=
  ⟨⟨by decide, by decide, by decide, by decide, by decide⟩,
    case_sensitive_merge [("PATH", "m")] [("path", "u")] "PATH" "path" "m" "u"
      (by decide) (by decide) (by decide) (by decide) (by decide) (by decide)
      (by decide)⟩

/-- Claim C5: the expander works in a single non-overlapping left-to-right
pass over an arbitrary template: after any `%`-free prefix, the leftmost
`%NAME%` token (NAME over letters, digits, underscore) is replaced by the
case-insensitively looked-up value — or left verbatim when the name is not
found — and scanning continues on the untouched remainder only, so
substituted text is never re-scanned; a template without `%` is returned
unchanged; in particular `expand("%A%", {A: "%B%", B: "x"}) == "%B%"`. -/
theorem expander_contract :
    (∀ (mapping : Env) (pre name rest v : String),
      '%' ∉ pre.data → name.data ≠ [] →
      (∀ c ∈ name.data, isWordChar c = true) →
      ciLookup mapping name = some v →
      expandPercentVars (pre ++ "%" ++ name ++ "%" ++ rest) mapping =
        pre ++ v ++ expandPercentVars rest mapping) ∧
    (∀ (mapping : Env) (pre name rest : String),
      '%' ∉ pre.data → name.data ≠ [] →
      (∀ c ∈ name.data, isWordChar c = true) →
      ciLookup mapping name = none →
      expandPercentVars (pre ++ "%" ++ name ++ "%" ++ rest) mapping =
        pre ++ "%" ++ name ++ "%" ++ expandPercentVars rest mapping) ∧
    (∀ (mapping : Env) (s : String), '%' ∉ s.data →
      expandPercentVars s mapping = s) ∧
    expandPercentVars "%A%" [("A", "%B%"), ("B", "x")] = "%B%" := by
  refine ⟨?_, ?_, ?_, by decide⟩
  · intro mapping pre name rest v hp h1 h2 hf
    obtain ⟨pd⟩ := pre
    obtain ⟨nd⟩ := name
    obtain ⟨rd⟩ := rest
    obtain ⟨vd⟩ := v
    show String.mk (scanPercent (ciLookup mapping)
      (String.mk pd ++ "%" ++ String.mk nd ++ "%" ++ String.mk rd).data) = _
    rw [show (String.mk pd ++ "%" ++ String.mk nd ++ "%" ++
        String.mk rd).data = pd ++ '%' :: (nd ++ '%' :: rd) by
      show (((pd ++ ['%']) ++ nd) ++ ['%']) ++ rd = _
      simp]
    rw [scanPercent_segment (ciLookup mapping) pd nd rd hp h1 h2]
    rw [show ciLookup mapping (String.mk nd) = some (String.mk vd) from hf]
    show String.mk (pd ++ vd ++ scanPercent (ciLookup mapping) rd) = _
    rw [show String.mk pd ++ String.mk vd ++ expandPercentVars (String.mk rd)
        mapping = String.mk ((pd ++ vd) ++
          scanPercent (ciLookup mapping) rd) from rfl]
  · intro mapping pre name rest hp h1 h2 hf
    obtain ⟨pd⟩ := pre
    obtain ⟨nd⟩ := name
    obtain ⟨rd⟩ := rest
    show String.mk (scanPercent (ciLookup mapping)
      (String.mk pd ++ "%" ++ String.mk nd ++ "%" ++ String.mk rd).data) = _
    rw [show (String.mk pd ++ "%" ++ String.mk nd ++ "%" ++
        String.mk rd).data = pd ++ '%' :: (nd ++ '%' :: rd) by
      show (((pd ++ ['%']) ++ nd) ++ ['%']) ++ rd = _
      simp]
    rw [scanPercent_segment (ciLookup mapping) pd nd rd hp h1 h2]
    rw [show ciLookup mapping (String.mk nd) = none from hf]
    show String.mk (pd ++ ('%' :: (nd ++ ['%'])) ++
      scanPercent (ciLookup mapping) rd) = _
    rw [show String.mk pd ++ "%" ++ String.mk nd ++ "%" ++
        expandPercentVars (String.mk rd) mapping =
        String.mk ((((pd ++ ['%']) ++ nd) ++ ['%']) ++
          scanPercent (ciLookup mapping) rd) from rfl]
    congr 1
    simp
  · intro mapping s hs
    obtain ⟨sd⟩ := s
    show String.mk (scanPercentF (ciLookup mapping) sd.length sd) = _
    rw [scanPercent_no_percent_aux (ciLookup mapping) sd sd.length
      (Nat.le_refl _) hs]

/-- Witness for C5: a resolved token with surrounding text, an unresolved
one, and a `%`-free template. -/
theorem expander_contract_witness :
    ('%' ∉ "x=".data ∧ "FOO".data ≠ [] ∧
      (∀ c ∈ "FOO".data, isWordChar c = true) ∧
      ciLookup [("foo", "bar")] "FOO" = some "bar" ∧
      expandPercentVars ("x=" ++ "%" ++ "FOO" ++ "%" ++ "yz")
        [("foo", "bar")] =
        "x=" ++ "bar" ++ expandPercentVars "yz" [("foo", "bar")]) ∧
    (ciLookup ([] : Env) "MISSING" = none ∧
      expandPercentVars ("a" ++ "%" ++ "MISSING" ++ "%" ++ "b") [] =
        "a" ++ "%" ++ "MISSING" ++ "%" ++ expandPercentVars "b" []) ∧
    ('%' ∉ "plain".data ∧ expandPercentVars "plain" [("A", "x")] = "plain") :=
  ⟨⟨by decide, by decide, by decide, by decide,
      expander_contract.1 [("foo", "bar")] "x=" "FOO" "yz" "bar" (by decide)
        (by decide) (by decide) (by decide)⟩,
    ⟨by decide,
      expander_contract.2.1 [] "a" "MISSING" "b" (by decide) (by decide)
        (by decide) (by decide)⟩,
    ⟨by decide,
      expander_contract.2.2.1 [("A", "x")] "plain" (by decide)⟩⟩

/-- Counterexample to C6 as stated: `reload()` looks the well-known keys
up with the exact spellings `TEMP`/`TMP` (`merged.get(var)` is
case-sensitive), so a tier entry spelled `Temp` is not re-expanded: with
machine tier `{Temp: "%X%"}` and live `{X: "y"}` the value reaches the
live environment (under its upper-cased slot) and the diff still as the
unexpanded `"%X%"`, not the claimed expansion `"y"`. -/
theorem temp_case_insensitive_cex :
    envGet (reload [("Temp", "%X%")] [] [("X", "y")]).1 "TEMP" =
      some "%X%" ∧
    envGet (reload [("Temp", "%X%")] [] [("X", "y")]).2 "Temp" =
      some "%X%" ∧
    (some "%X%" : Option String) ≠ some "y" := by decide

/-- Claim C6 (amended): for the exact keys `TEMP` and `TMP`, if present in
`merged` with a value containing `%`, `reload()` re-expands the value
first by the host's path-expansion convention against the live
environment and then by the expander with a lookup layering machine tier,
user tier, then live environment (later layers win); in the spec's
scenario the live environment ends with `TEMP == "C:\\Windows\\Temp"` and
the diff contains `TEMP`. -/
theorem temp_tmp_expansion :
    (∀ (machine user cur : Env) (v : String),
      envGet (mkMerged machine user) "TEMP" = some v → '%' ∈ v.data →
      envGet (mergedFinal machine user cur) "TEMP" =
        some (expandPercentVars (expandvars v cur)
          (tempTmpMapping machine user cur))) ∧
    (∀ (machine user cur : Env) (v : String),
      envGet (mkMerged machine user) "TMP" = some v → '%' ∈ v.data →
      envGet (mergedFinal machine user cur) "TMP" =
        some (expandPercentVars (expandvars v cur)
          (tempTmpMapping machine user cur))) ∧
    envGet (reload [("TEMP", "%SystemRoot%\\Temp")] []
      [("SystemRoot", "C:\\Windows")]).1 "TEMP" =
        some "C:\\Windows\\Temp" ∧
    envGet (reload [("TEMP", "%SystemRoot%\\Temp")] []
      [("SystemRoot", "C:\\Windows")]).2 "TEMP" =
        some "C:\\Windows\\Temp" := by
  refine ⟨?_, ?_, by decide, by decide⟩
  · intro machine user cur v hv _
    unfold mergedFinal expandTempTmp
    rw [expandTempTmpStep_get_ne machine user cur _ "TMP" "TEMP" (by decide),
      expandTempTmpStep_of_get machine user cur _ "TEMP" v hv]
    exact envGet_insert_self _ _ _
  · intro machine user cur v hv _
    have h1 : envGet (expandTempTmpStep machine user cur
        (mkMerged machine user) "TEMP") "TMP" = some v := by
      rw [expandTempTmpStep_get_ne machine user cur _ "TEMP" "TMP" (by decide)]
      exact hv
    unfold mergedFinal expandTempTmp
    rw [expandTempTmpStep_of_get machine user cur _ "TMP" v h1]
    exact envGet_insert_self _ _ _

/-- Witness for the amended C6 at the spec's scenario. -/
theorem temp_tmp_expansion_witness :
    (envGet (mkMerged [("TEMP", "%SystemRoot%\\Temp")] []) "TEMP" =
        some "%SystemRoot%\\Temp" ∧
      '%' ∈ "%SystemRoot%\\Temp".data) ∧
    envGet (mergedFinal [("TEMP", "%SystemRoot%\\Temp")] []
        [("SystemRoot", "C:\\Windows")]) "TEMP" =
      some (expandPercentVars
        (expandvars "%SystemRoot%\\Temp" [("SystemRoot", "C:\\Windows")])
        (tempTmpMapping [("TEMP", "%SystemRoot%\\Temp")] []
          [("SystemRoot", "C:\\Windows")])) :=
  ⟨⟨by decide, by decide⟩,
    temp_tmp_expansion.1 [("TEMP", "%SystemRoot%\\Temp")] []
      [("SystemRoot", "C:\\Windows")] "%SystemRoot%\\Temp" (by decide)
      (by decide)⟩

/-- Counterexample to C7 as stated: only `FileNotFoundError` is tolerated
by `_read_registry_env`; any other failure to open the machine tier (for
example a permission error) propagates out of `reload()`, so an exception
does escape and the user-tier values are not applied. -/
theorem store_open_error_cex :
    reloadFromStore RegReadResult.openError (RegReadResult.ok [("K", "v")])
      [] = Except.error () := rfl

/-- Claim C7 (amended): if reading the machine tier fails because the
registry key does not exist (`FileNotFoundError` — the one
store-unavailability `reload()` tolerates) while the user tier read
succeeds, the machine tier is treated as an empty mapping, every user-tier
value still reaches the live environment, and no exception escapes. -/
theorem store_missing_tolerated (user cur : Env) (hwu : EnvWF user)
    (hcur : ∀ p ∈ cur, pyUpper p.1 = p.1) :
    reloadFromStore RegReadResult.notFound (RegReadResult.ok user) cur =
      Except.ok (reload [] user cur) ∧
    (∀ k v, envGet user k = some v → k ≠ "TEMP" → k ≠ "TMP" →
      (∀ k2 ∈ envKeys user, pyUpper k2 = pyUpper k → k2 = k) →
      envGet (reload [] user cur).1 (pyUpper k) = some v) ∧
    (∀ k, k ∈ envKeys user →
      (∀ k2 ∈ envKeys user, pyUpper k2 = pyUpper k → k2 = k) →
      ∃ v, envGet (reload [] user cur).1 (pyUpper k) = some v) := by
  have huniq2 : ∀ k : String,
      (∀ k2 ∈ envKeys user, pyUpper k2 = pyUpper k → k2 = k) →
      ∀ k2 ∈ envKeys (mergedFinal [] user cur),
        pyUpper k2 = pyUpper k → k2 = k := by
    intro k huniq k2 hk2 he
    rcases (mem_envKeys_mergedFinal [] user cur k2).mp hk2 with h | h
    · exact absurd h (by simp [envKeys])
    · exact huniq k2 h he
  refine ⟨rfl, ?_, ?_⟩
  · intro k v hv hT hM huniq
    have hmg : envGet (mkMerged [] user) k = some v := by
      unfold mkMerged
      rw [envGet_update_mem user _ k hwu (mem_envKeys_of_envGet _ _ _ hv)]
      exact hv
    have hmf : envGet (mergedFinal [] user cur) k = some v := by
      unfold mergedFinal expandTempTmp
      rw [expandTempTmpStep_get_ne [] user cur _ "TMP" k hM,
        expandTempTmpStep_get_ne [] user cur _ "TEMP" k hT]
      exact hmg
    rw [reload_live_upper [] user cur k hcur
      (mem_envKeys_of_envGet _ _ _ hmf) (huniq2 k huniq)]
    exact hmf
  · intro k hk huniq
    have hk2 : k ∈ envKeys (mergedFinal [] user cur) :=
      (mem_envKeys_mergedFinal [] user cur k).mpr (Or.inr hk)
    obtain ⟨v, hv⟩ := envGet_isSome_of_mem _ k hk2
    refine ⟨v, ?_⟩
    rw [reload_live_upper [] user cur k hcur hk2 (huniq2 k huniq)]
    exact hv

/-- Witness for the amended C7 at a concrete user tier. -/
theorem store_missing_tolerated_witness :
    (EnvWF [("K", "v")] ∧ (∀ p ∈ ([] : Env), pyUpper p.1 = p.1) ∧
      (∀ k2 ∈ envKeys [("K", "v")], pyUpper k2 = pyUpper "K" → k2 = "K")) ∧
    reloadFromStore RegReadResult.notFound (RegReadResult.ok [("K", "v")]) []
      = Except.ok (reload [] [("K", "v")] []) ∧
    envGet (reload [] [("K", "v")] []).1 (pyUpper "K") = some "v" :=
  ⟨⟨by decide, by decide, by decide⟩,
    (store_missing_tolerated [("K", "v")] [] (by decide) (by decide)).1,
    (store_missing_tolerated [("K", "v")] [] (by decide) (by decide)).2.1
      "K" "v" (by decide) (by decide) (by decide) (by decide)⟩

/-- Counterexample to C8 as stated: when the PowerShell tool exists but
its write fails (`CalledProcessError`), `set()` returns `false` without
ever attempting the registry fallback — here the fallback would succeed
(`regWriteOk = true`), so it is not the case that both persistence paths
failed. -/
theorem setVar_false_despite_fallback_cex :
    (setVar PSOutcome.calledProcessError true [] "K" "V").1 = false := by
  decide

/-- Claim C8 (amended): `set()` returns `true` iff the primary PowerShell
write succeeded, or the PowerShell tool was unavailable
(`FileNotFoundError`) and the registry fallback write succeeded — the
fallback is attempted only on tool unavailability; whenever it returns
`false`, the live environment is left unmodified. -/
theorem setVar_result (ps : PSOutcome) (regWriteOk : Bool) (live : Env)
    (key value : String) :
    ((setVar ps regWriteOk live key value).1 = true ↔
      ps = PSOutcome.ok ∨ (ps = PSOutcome.notFound ∧ regWriteOk = true)) ∧
    ((setVar ps regWriteOk live key value).1 = false →
      (setVar ps regWriteOk live key value).2 = live) := by
  cases ps <;> cases regWriteOk <;> simp [setVar]

/-- Witness for the amended C8: both paths fail, `false` is returned and
the live environment is untouched. -/
theorem setVar_result_witness :
    (setVar PSOutcome.notFound false [("E", "x")] "K" "V").1 = false ∧
    (setVar PSOutcome.notFound false [("E", "x")] "K" "V").2 = [("E", "x")] :=
  ⟨by decide,
    (setVar_result PSOutcome.notFound false [("E", "x")] "K" "V").2
      (by decide)⟩

/-- Claim C9: `set()` runs exactly one PowerShell script — the
`SetEnvironmentVariable` one — and the WM_SETTINGCHANGE broadcast snippet
returned by `_broadcast_environment_change_ps` is never among its
invocations, contradicting the module's documented behavior of
broadcasting after a successful persist. -/
theorem set_never_broadcasts :
    setPsInvocations "A" "1" = [psSetScript "A" "1"] ∧
    psSetScript "A" "1" =
      "[Environment]::SetEnvironmentVariable(\x27A\x27, \x271\x27, \x27User\x27);" ∧
    broadcastScript ∉ setPsInvocations "A" "1" := by decide

/-- Claim C10: `get(key, power_shell=True)` runs one fixed PowerShell
query for the literal name `MY_VAR` (User scope); its result does not
depend on the key argument. -/
theorem get_powershell_ignores_key (env : Env)
    (psRun : List String → String) (k1 k2 : String) :
    getVar env psRun k1 true = getVar env psRun k2 true ∧
    psGetArgs = ["powershell", "-NoProfile", "-Command",
      "[Environment]::GetEnvironmentVariable(\x27MY_VAR\x27,\x27User\x27)"] :=
  ⟨rfl, rfl⟩

end Ezenviron
